import Mathlib

/-!
Verification development for the handover-agent repository.

The definitions below are shallow embeddings of the TypeScript sources:
  - string helpers model `toLowerCase`, `includes`, `split(/\s+/)`;
  - the knowledge store (`src/plugin/mcp/src/lib/knowledge-store.ts`) is
    modelled as a pure state-passing machine over an association-list
    filesystem (one file per entry id, plus the index file);
  - the relevance ranker (`src/src/knowledge/indexer.ts`), the coverage
    computation of the gap engine, the feedback analyzer
    (`src/src/feedback/collector.ts`), the file lock, and the Q&A response
    parsers are translated function by function.

JavaScript numbers holding entry confidences and rating ratios are modelled
as rationals (ℚ): every constant involved (0.3, 0.4, 0.5, 0.6, 0.9, small
integer scores) is exactly representable and the magnitudes involved keep
IEEE-754 comparisons in agreement with exact rational comparisons.
Timestamps (ISO strings parsed with `Date`) are modelled by their epoch
millisecond value as integers where arithmetic is performed on them.
-/

namespace Handover

/-! ## String helpers (JS `toLowerCase`, `includes`, `split(/\s+/)`) -/

/-- Lower-case a string character-wise: models JS `String.prototype.toLowerCase`
for the ASCII data handled by the repository. -/
def strLower (s : String) : String := ⟨s.data.map Char.toLower⟩

/-- Does `pat` occur at the head of `s`? (character-list prefix check). -/
def listLeads : List Char → List Char → Bool
  | [], _ => true
  | _ :: _, [] => false
  | a :: as, b :: bs => a == b && listLeads as bs

/-- Does `pat` occur anywhere in `s`? (substring search over character lists). -/
def listHolds (pat : List Char) : List Char → Bool
  | [] => listLeads pat []
  | c :: rest => listLeads pat (c :: rest) || listHolds pat rest

/-- Models JS `haystack.includes(needle)` (substring containment). -/
def strContains (haystack needle : String) : Bool :=
  listHolds needle.data haystack.data

/-- Split a character list at every character satisfying `p`, keeping empty
fragments, exactly like `String.prototype.split` on a single-character
separator class. -/
def splitCharsGo (p : Char → Bool) : List Char → List Char → List String
  | [], cur => [String.mk cur.reverse]
  | c :: rest, cur =>
      if p c then String.mk cur.reverse :: splitCharsGo p rest []
      else splitCharsGo p rest (c :: cur)

/-- Models `s.split(pred)`. -/
def splitOnPred (p : Char → Bool) (s : String) : List String :=
  splitCharsGo p s.data []

/-- Models `s.split(/\s+/)` followed by discarding short tokens: splitting on
each whitespace character yields the same non-empty tokens as splitting on
whitespace runs, and the length filter removes all empty fragments. -/
def wsTokens (s : String) (minLen : Nat) : List String :=
  (splitOnPred (fun c => c.isWhitespace) s).filter fun t => minLen < t.length

/-! ## Stable descending sort

Models `array.sort((a, b) => b.score - a.score)`: V8's sort is stable, and a
left fold of an insertion that places `x` before `y` only when `key y < key x`
is the stable descending sort. -/

/-- Insert `x` into `l`, placing it before the first strictly smaller key. -/
def insertDescBy {α β : Type} [LinearOrder β] (key : α → β) (x : α) : List α → List α
  | [] => [x]
  | y :: ys => if key y < key x then x :: y :: ys else y :: insertDescBy key x ys

/-- Stable sort by descending key. -/
def sortDescBy {α β : Type} [LinearOrder β] (key : α → β) (l : List α) : List α :=
  l.foldl (fun acc x => insertDescBy key x acc) []

/-! ## Data model (`src/plugin/mcp/src/lib/types.ts`)

`KnowledgeCategory` and `KnowledgeSource.type` are string-literal unions in
the source; they are modelled as strings. Confidence is a JS number in [0,1],
modelled as ℚ. -/

structure KnowledgeSource where
  type : String
  path : Option String
  ref : Option String
  deriving DecidableEq, Repr

structure KnowledgeEntry where
  id : String
  title : String
  content : String
  category : String
  tags : List String
  source : KnowledgeSource
  confidence : ℚ
  createdAt : String
  updatedAt : String
  deriving DecidableEq, Repr

structure KnowledgeIndexEntry where
  id : String
  title : String
  category : String
  tags : List String
  confidence : ℚ
  deriving DecidableEq, Repr

structure KnowledgeIndex where
  entries : List KnowledgeIndexEntry
  lastUpdated : String
  totalEntries : Nat
  deriving DecidableEq, Repr

/-! ## Filesystem model

A directory of JSON record files is an association list from file name (the
entry id) to parsed content; `none` content models a file that exists but
fails to parse (`readJSON` returns `null` for it). Writing to an existing
name replaces the content in place; writing a new name appends. -/

/-- A directory of files keyed by name. -/
abbrev FileMap (α : Type) : Type := List (String × α)

/-- Reading a file: `some v` when a file with that name exists. -/
def lookupFile {α : Type} (m : FileMap α) (k : String) : Option α :=
  (m.find? fun kv => kv.1 == k).map fun kv => kv.2

/-- `writeFileSync` at the record level: replace in place or create. -/
def writeFile {α : Type} : FileMap α → String → α → FileMap α
  | [], k, v => [(k, v)]
  | kv :: rest, k, v =>
      if kv.1 = k then (k, v) :: rest else kv :: writeFile rest k v

/-- `unlinkSync`: remove the file with the given name. -/
def removeFile {α : Type} (m : FileMap α) (k : String) : FileMap α :=
  m.filter fun kv => ¬ kv.1 = k

/-- Models `Array.prototype.findIndex` (with `none` for -1). -/
def findIdxOf {α : Type} (p : α → Bool) : List α → Option Nat
  | [] => none
  | x :: xs => if p x then some 0 else (findIdxOf p xs).map (· + 1)

/-! ## Knowledge store (`src/plugin/mcp/src/lib/knowledge-store.ts`)

State of the store's data directory: the `knowledge/entries/*.json` files and
the `knowledge/index.json` file. For the index file, `none` models an absent
file and `some none` a present but unparseable one. The file lock serializes
the mutating operations across processes; within this single-trace model each
operation runs in isolation (the lock itself is modelled separately for the
acquisition contract). `new Date().toISOString()` values and `randomUUID()`
results are passed in as the `now` / `freshId` arguments. -/

structure StoreFs where
  entryFiles : FileMap (Option KnowledgeEntry)
  indexFile : Option (Option KnowledgeIndex)
  deriving DecidableEq, Repr

/-- `KnowledgeStore.getEntry`: `readJSON` of the entry file (absent and
unparseable both yield `none`). -/
def getEntry (s : StoreFs) (id : String) : Option KnowledgeEntry :=
  match lookupFile s.entryFiles id with
  | some (some e) => some e
  | _ => none

/-- `KnowledgeStore.getAllEntries`: list the entry files, parse each, skip
any that fail to parse. -/
def getAllEntries (s : StoreFs) : List KnowledgeEntry :=
  s.entryFiles.filterMap fun kv => kv.2

/-- `KnowledgeStore.getIndex`: read the index file, defaulting to an empty
index when absent or unparseable. -/
def getIndex (s : StoreFs) (now : String) : KnowledgeIndex :=
  match s.indexFile with
  | some (some idx) => idx
  | _ => { entries := [], lastUpdated := now, totalEntries := 0 }

/-- `KnowledgeStore.toIndexEntry`. -/
def toIndexEntry (e : KnowledgeEntry) : KnowledgeIndexEntry :=
  { id := e.id, title := e.title, category := e.category,
    tags := e.tags, confidence := e.confidence }

/-- The comparison inside `KnowledgeStore.findDuplicate`. -/
def dupPred (e d : KnowledgeEntry) : Bool :=
  strLower d.title == strLower e.title &&
  d.source.type == e.source.type &&
  d.source.path == e.source.path

/-- `KnowledgeStore.findDuplicate`: first stored entry agreeing with `e` on
lower-cased title, source type and source path. -/
def findDuplicate (s : StoreFs) (e : KnowledgeEntry) : Option KnowledgeEntry :=
  (getAllEntries s).find? (dupPred e)

/-- The dedup key of the specification: `(title lower-cased, source.type,
source.path)`. -/
def dedupKey (e : KnowledgeEntry) : String × String × Option String :=
  (strLower e.title, e.source.type, e.source.path)

/-- `KnowledgeStore.addEntry`. JS falsiness of `entry.id` / the timestamp
strings is the empty string. Returns `(id, deduplicated)` plus the new
state. -/
def addEntry (s : StoreFs) (e : KnowledgeEntry) (freshId now : String) :
    (String × Bool) × StoreFs :=
  match findDuplicate s e with
  | some existing => ((existing.id, true), s)
  | none =>
      let eid := if e.id = "" then freshId else e.id
      let eFixed : KnowledgeEntry :=
        { e with
          id := eid
          createdAt := if e.createdAt = "" then now else e.createdAt
          updatedAt := if e.updatedAt = "" then now else e.updatedAt }
      let s1 : StoreFs := { s with entryFiles := writeFile s.entryFiles eid (some eFixed) }
      let idx := getIndex s1 now
      let newEntries := idx.entries ++ [toIndexEntry eFixed]
      let idx1 : KnowledgeIndex :=
        { entries := newEntries, lastUpdated := now, totalEntries := newEntries.length }
      ((eid, false), { s1 with indexFile := some (some idx1) })

/-- `Partial<KnowledgeEntry>` for `updateEntry`: each field optionally
present. (`id` and `updatedAt` inside the updates are always overridden by
the spread in the source, so they are omitted here.) -/
structure EntryUpdates where
  title : Option String
  content : Option String
  category : Option String
  tags : Option (List String)
  source : Option KnowledgeSource
  confidence : Option ℚ
  createdAt : Option String
  deriving DecidableEq, Repr

/-- The spread `{...existing, ...updates, id, updatedAt: now}`. -/
def applyUpdates (e : KnowledgeEntry) (u : EntryUpdates) (id now : String) :
    KnowledgeEntry :=
  { id := id
    title := u.title.getD e.title
    content := u.content.getD e.content
    category := u.category.getD e.category
    tags := u.tags.getD e.tags
    source := u.source.getD e.source
    confidence := u.confidence.getD e.confidence
    createdAt := u.createdAt.getD e.createdAt
    updatedAt := now }

/-- `KnowledgeStore.updateEntry`. -/
def updateEntry (s : StoreFs) (id : String) (u : EntryUpdates) (now : String) :
    Option KnowledgeEntry × StoreFs :=
  match getEntry s id with
  | none => (none, s)
  | some existing =>
      let updated := applyUpdates existing u id now
      let s1 : StoreFs := { s with entryFiles := writeFile s.entryFiles id (some updated) }
      let idx := getIndex s1 now
      let entries1 :=
        match findIdxOf (fun ie => ie.id == id) idx.entries with
        | some p => idx.entries.set p (toIndexEntry updated)
        | none => idx.entries
      (some updated,
        { s1 with indexFile := some (some { idx with entries := entries1, lastUpdated := now }) })

/-- `KnowledgeStore.deleteEntry`. `existsSync` is file presence (also for a
file that fails to parse). -/
def deleteEntry (s : StoreFs) (id : String) (now : String) : Bool × StoreFs :=
  if lookupFile s.entryFiles id = none then (false, s)
  else
    let s1 : StoreFs := { s with entryFiles := removeFile s.entryFiles id }
    let idx := getIndex s1 now
    let entries1 := idx.entries.filter fun ie => ¬ ie.id = id
    (true,
      { s1 with indexFile := some (some
          { entries := entries1, lastUpdated := now, totalEntries := entries1.length }) })

/-- `KnowledgeStore.rebuildIndex`: recompute the index from the entry files. -/
def rebuildIndex (s : StoreFs) (now : String) : KnowledgeIndex × StoreFs :=
  let all := getAllEntries s
  let idx : KnowledgeIndex :=
    { entries := all.map toIndexEntry, lastUpdated := now, totalEntries := all.length }
  (idx, { s with indexFile := some (some idx) })

/-- `KnowledgeStore.init`: create the empty index file when absent (a present
but unparseable index file passes the `existsSync` check and is kept). -/
def initStore (s : StoreFs) (now : String) : StoreFs :=
  match s.indexFile with
  | none => { s with indexFile := some (some { entries := [], lastUpdated := now, totalEntries := 0 }) }
  | some _ => s

/-- The id `addEntry` assigns: keep a non-empty caller id, else the fresh
uuid. -/
def assignedId (e : KnowledgeEntry) (freshId : String) : String :=
  if e.id = "" then freshId else e.id

/-- The entry as persisted by `addEntry` (id and missing timestamps filled). -/
def fixEntry (e : KnowledgeEntry) (freshId now : String) : KnowledgeEntry :=
  { e with
    id := assignedId e freshId
    createdAt := if e.createdAt = "" then now else e.createdAt
    updatedAt := if e.updatedAt = "" then now else e.updatedAt }

/-- Entry used by concrete store scenarios. -/
def wAuthEntry : KnowledgeEntry :=
  { id := "id-a", title := "Auth design", content := "c1",
    category := "architecture", tags := [],
    source := { type := "file", path := some "src/auth.ts", ref := none },
    confidence := 1, createdAt := "t0", updatedAt := "t0" }

/-- Re-extracted fact: same dedup key as `wAuthEntry` (title differs only in
case), different content, no id or timestamps yet. -/
def wAuthEntry2 : KnowledgeEntry :=
  { id := "", title := "auth DESIGN", content := "c2 reworded",
    category := "architecture", tags := [],
    source := { type := "file", path := some "src/auth.ts", ref := none },
    confidence := 1, createdAt := "", updatedAt := "" }

/-- A store already holding `wAuthEntry`, with a consistent index. -/
def wDupStore : StoreFs :=
  { entryFiles := [("id-a", some wAuthEntry)]
    indexFile := some (some
      { entries := [toIndexEntry wAuthEntry], lastUpdated := "t0", totalEntries := 1 }) }

/-- An initialized store with no entries yet. -/
def wEmptyStore : StoreFs :=
  { entryFiles := []
    indexFile := some (some { entries := [], lastUpdated := "t0", totalEntries := 0 }) }

/-- A store holding no entry records and an empty index. -/
def emptyStoreFs : StoreFs :=
  { entryFiles := []
    indexFile := some (some { entries := [], lastUpdated := "t0", totalEntries := 0 }) }

/-- No-field update object. -/
def noUpdates : EntryUpdates :=
  { title := none, content := none, category := none, tags := none,
    source := none, confidence := none, createdAt := none }

/-! ## C7: per-category coverage of the gap engine
(`buildKnowledgeMap`, gap-analyzer agent) -/

/-- The coverage computation of `buildKnowledgeMap`: base coverage from the
category's entry count, an engagement bonus from questions asked, and a final
cap at 100. -/
def categoryCoverage (entryCount questionsAsked : Nat) : Nat :=
  let cov :=
    if entryCount > 0 then
      min 80 (entryCount * 20) +
        (if questionsAsked > 0 then min 20 (questionsAsked * 10) else 0)
    else 0
  min 100 cov

/-! ## C3: observability of `writeJSON` writes (`src/src/utils/files.ts`)

`writeJSON` serializes and calls `writeFileSync(path, text)` on the target
path itself. `writeFileSync` opens the file with flag `w` (truncate) and then
writes the buffer; at the filesystem level a concurrent reader of the same
path can therefore observe the old content (before the open), the empty file
(after truncation), or any prefix of the new content (during the write).
`writeFileObservable` models this sequence of observable contents; file
contents are character lists. -/

/-- Observable file states during an in-place `writeFileSync`: the old
content, then every prefix of the new content (truncation is the empty
prefix). -/
def writeFileObservable (oldContent newContent : List Char) : List (List Char) :=
  oldContent :: (List.range (newContent.length + 1)).map fun k => newContent.take k

/-- Modelled from the spec: the write contract demands that a reader only
ever observes the complete old content or the complete new content. -/
def atomicObservable (oldContent newContent : List Char) : List (List Char) :=
  [oldContent, newContent]

/-! ## C4: `FileLock.acquire` (lock module)

The acquisition loop is modelled as a trace semantics. At each iteration the
process observes the lock file as left by the environment (other processes may
create, remove or rewrite it between iterations):

  - `marker = none`: no lock file; the `wx`-flagged `writeFileSync` then
    either succeeds (`winRace = true`, the marker is created and `acquire`
    returns) or throws because another process won the race;
  - `marker = some none`: a lock file that fails to parse (it is unlinked and
    the loop retries immediately);
  - `marker = some (some t)`: a lock file whose recorded acquisition time is
    `t` (stale when `now - t > LOCK_TIMEOUT_MS`: unlinked, immediate retry).

`now` is `Date.now()` in epoch milliseconds; a sleep advances it by
`LOCK_RETRY_MS`. `pending` reports that the observation trace ended while the
loop would still be running. -/

structure LockObs where
  marker : Option (Option Int)
  winRace : Bool
  deriving DecidableEq, Repr

inductive AcquireOutcome
  | acquired
  | timeout
  | pending
  deriving DecidableEq, Repr

def LOCK_TIMEOUT_MS : Int := 5000

def LOCK_RETRY_MS : Int := 50

/-- The `FileLock.acquire` retry loop over an observation trace. -/
def acquireRun (start : Int) (obs : List LockObs) (now : Int) : AcquireOutcome :=
  if LOCK_TIMEOUT_MS ≤ now - start then .timeout
  else
    match obs with
    | [] => .pending
    | o :: rest =>
        match o.marker with
        | none =>
            if o.winRace then .acquired
            else acquireRun start rest (now + LOCK_RETRY_MS)
        | some none => acquireRun start rest now
        | some (some t) =>
            if LOCK_TIMEOUT_MS < now - t then acquireRun start rest now
            else acquireRun start rest (now + LOCK_RETRY_MS)

/-! ## C5/C6: relevance ranking (`src/src/knowledge/indexer.ts`,
`findRelevantEntries`) -/

/-- The query terms of `findRelevantEntries`: the lower-cased query split on
whitespace, keeping tokens of length > 2. -/
def rankTerms (query : String) : List String :=
  (splitOnPred (fun c => c.isWhitespace) (strLower query)).filter fun t => 2 < t.length

/-- The score accumulation of `findRelevantEntries` before the confidence
weighting: phrase bonuses, then the per-term loop. -/
def rawScore (query : String) (entry : KnowledgeEntry) : Nat :=
  let queryLower := strLower query
  let titleLower := strLower entry.title
  let contentLower := strLower entry.content
  let tagsLower := entry.tags.map strLower
  let base :=
    (if strContains titleLower queryLower then 10 else 0) +
    (if strContains contentLower queryLower then 5 else 0)
  (rankTerms query).foldl (fun sc term =>
      sc + (if strContains titleLower term then 3 else 0)
         + (if strContains contentLower term then 1 else 0)
         + (if tagsLower.contains term then 4 else 0)
         + (if strContains (strLower entry.category) term then 2 else 0)) base

/-- `findRelevantEntries`: no-term queries return the first `limit` entries;
otherwise score, filter out non-positive, sort descending, truncate. -/
def findRelevantEntries (query : String) (entries : List KnowledgeEntry)
    (limit : Nat) : List KnowledgeEntry :=
  if rankTerms query = [] then entries.take limit
  else
    let scored := entries.map fun entry =>
      (entry, (rawScore query entry : ℚ) * entry.confidence)
    (((sortDescBy (fun s => s.2) (scored.filter fun s => 0 < s.2)).take limit).map
       fun s => s.1)

/-- Modelled from the claim text: the per-term points of the ranking formula. -/
def specTermPoints (entry : KnowledgeEntry) (term : String) : Nat :=
  (if strContains (strLower entry.title) term then 3 else 0) +
  (if strContains (strLower entry.content) term then 1 else 0) +
  (if (entry.tags.map strLower).contains term then 4 else 0) +
  (if strContains (strLower entry.category) term then 2 else 0)

/-- Modelled from the claim text: raw textual score = phrase bonuses plus the
sum of per-term points. -/
def specRawScore (query : String) (entry : KnowledgeEntry) : Nat :=
  (if strContains (strLower entry.title) (strLower query) then 10 else 0) +
  (if strContains (strLower entry.content) (strLower query) then 5 else 0) +
  ((rankTerms query).map (specTermPoints entry)).sum

/-- Modelled from the claim text: final score = raw score × confidence. -/
def specScore (query : String) (entry : KnowledgeEntry) : ℚ :=
  (specRawScore query entry : ℚ) * entry.confidence

/-- Modelled from the claim text: the ranking pipeline as the spec words it. -/
def rankSpec (query : String) (entries : List KnowledgeEntry) (limit : Nat) :
    List KnowledgeEntry :=
  if rankTerms query = [] then entries.take limit
  else
    (((sortDescBy (fun s => s.2)
        ((entries.map fun e => (e, specScore query e)).filter fun s => 0 < s.2)).take
          limit).map fun s => s.1)

/-- The conclusion of the ranking-monotonicity claim: `worse` never precedes
`better` in the list. -/
def neverRanksAfter (l : List KnowledgeEntry) (better worse : KnowledgeEntry) : Prop :=
  ∀ (i j : Nat) (hi : i < l.length) (hj : j < l.length),
    l.get ⟨i, hi⟩ = worse → l.get ⟨j, hj⟩ = better → j < i

/-- Entry used in the concrete ranking scenario. -/
def wRankBase : KnowledgeEntry :=
  { id := "r1", title := "Authentication Flow", content := "how login works",
    category := "codebase", tags := ["auth"],
    source := { type := "doc", path := none, ref := none },
    confidence := 1, createdAt := "t0", updatedAt := "t0" }

/-- Content well-formedness of the entries directory: every file parses and
records its own file name as id. -/
def FilesWF (m : FileMap (Option KnowledgeEntry)) : Prop :=
  ∀ kv ∈ m, ∃ e, kv.2 = some e ∧ e.id = kv.1

/-- One mutating store operation (the `randomUUID` / `Date` values an
execution would draw are carried as data). -/
inductive StoreOp where
  | add (e : KnowledgeEntry) (freshId now : String)
  | upd (id : String) (u : EntryUpdates) (now : String)
  | del (id : String) (now : String)
  deriving Repr

/-- Apply one operation to the store state. -/
def applyOp (s : StoreFs) : StoreOp → StoreFs
  | .add e fid now => (addEntry s e fid now).2
  | .upd id u now => (updateEntry s id u now).2
  | .del id now => (deleteEntry s id now).2

/-- Run a sequence of operations. -/
def runOps (s : StoreFs) (ops : List StoreOp) : StoreFs := ops.foldl applyOp s

/-- An `add` is id-fresh in state `s` when, if its dedup check fails (so it
will write), the id it persists under names no existing entry file. -/
def opFresh (s : StoreFs) : StoreOp → Prop
  | .add e fid _ =>
      findDuplicate s e = none → lookupFile s.entryFiles (assignedId e fid) = none
  | .upd _ _ _ => True
  | .del _ _ => True

/-- All `add`s along the run are id-fresh in the state they execute in. -/
def OpsFresh : StoreFs → List StoreOp → Prop
  | _, [] => True
  | s, op :: rest => opFresh s op ∧ OpsFresh (applyOp s op) rest

/-- The store invariant: every entry file parses and records its file name as
id, file names are unique, and the index file holds exactly the projections
of the entry records with their count. -/
def GoodState (s : StoreFs) : Prop :=
  FilesWF s.entryFiles ∧
  (s.entryFiles.map Prod.fst).Nodup ∧
  ∃ lu, s.indexFile = some (some
    { entries := (getAllEntries s).map toIndexEntry
      lastUpdated := lu
      totalEntries := (getAllEntries s).length })

/-- First entry written under the caller-chosen id "a". -/
def wReusedA : KnowledgeEntry :=
  { id := "a", title := "T one", content := "c", category := "codebase", tags := [],
    source := { type := "file", path := some "p1", ref := none },
    confidence := 1, createdAt := "t0", updatedAt := "t0" }

/-- Different fact (different dedup key) reusing the same id "a". -/
def wReusedB : KnowledgeEntry :=
  { wReusedA with
    title := "T two"
    content := "c2"
    source := { type := "file", path := some "p2", ref := none } }

/-- Title-only update object. -/
def wUpdTitle : EntryUpdates :=
  { title := some "Auth redesign", content := none, category := none,
    tags := none, source := none, confidence := none, createdAt := none }

/-! ## C8: weak-area detection (`src/src/feedback/collector.ts`)

`Feedback.rating` is the `'positive' | 'negative'` union; timestamps (ISO
strings read through `new Date(...).getTime()`) are carried as epoch
milliseconds. `QAMessage.citations`/`confidence` and the `Session` id fields
are never read by the collector and are omitted from the embedding. -/

inductive Rating where
  | positive
  | negative
  deriving DecidableEq, Repr

structure Feedback where
  rating : Rating
  comment : Option String
  timestamp : Int
  messageId : Option String
  deriving DecidableEq, Repr

structure QAMessage where
  role : String
  content : String
  timestamp : Int
  feedback : Option Feedback
  deriving DecidableEq, Repr

structure Session where
  messages : List QAMessage
  topicsCovered : List String
  deriving Repr

/-- The stop-word set of `tokenize`. -/
def stopWords : List String :=
  ["the", "a", "an", "is", "are", "was", "were", "be", "been",
   "being", "have", "has", "had", "do", "does", "did", "will",
   "would", "could", "should", "may", "might", "can", "shall",
   "to", "of", "in", "for", "on", "with", "at", "by", "from",
   "as", "into", "through", "during", "before", "after", "and",
   "but", "or", "nor", "not", "so", "yet", "both", "either",
   "neither", "each", "every", "all", "any", "few", "more",
   "most", "other", "some", "such", "no", "only", "own", "same",
   "than", "too", "very", "just", "about", "what", "how", "why",
   "when", "where", "who", "which", "this", "that", "these",
   "those", "it", "its", "i", "me", "my", "we", "our", "you",
   "your", "he", "she", "they", "them", "their"]

/-- A lower-case letter or digit (the characters `[a-z0-9]` kept by the
tokenizer's replacement step, which runs after lower-casing). -/
def isTokChar (c : Char) : Bool :=
  ('a' ≤ c && c ≤ 'z') || ('0' ≤ c && c ≤ '9')

/-- `tokenize`: lower-case, replace non-alphanumerics by spaces, split on
whitespace, drop tokens of length ≤ 2 and stop words. -/
def tokenize (text : String) : List String :=
  let cleaned : String :=
    ⟨(strLower text).data.map fun c => if isTokChar c || c.isWhitespace then c else ' '⟩
  (splitOnPred (fun c => c.isWhitespace) cleaned).filter fun t =>
    2 < t.length && !(stopWords.contains t)

/-- `findPrecedingUserMessage`: content of the nearest user message before
index `i`. -/
def findPrecedingUserMessage (messages : List QAMessage) (i : Nat) : Option String :=
  (((messages.take i).reverse).find? fun m => m.role == "user").map fun m => m.content

/-- `questionFeedback.get(q) ?? []`. -/
def getQF (m : FileMap (List Feedback)) (k : String) : List Feedback :=
  (lookupFile m k).getD []

/-- `questionFeedback.set(q, existing ++ fbs)` (JS `Map` keeps the key's
insertion position on update). -/
def pushQF (m : FileMap (List Feedback)) (k : String) (fbs : List Feedback) :
    FileMap (List Feedback) :=
  writeFile m k (getQF m k ++ fbs)

/-- The body of `matchFeedbackToQuestions`'s message loop at index `i`. -/
def feedbackStep (fh : List Feedback) (msgs : List QAMessage)
    (m : FileMap (List Feedback)) (i : Nat) (msg : QAMessage) :
    FileMap (List Feedback) :=
  if ¬ msg.role = "assistant" then m
  else
    match msg.feedback with
    | some fb =>
        match findPrecedingUserMessage msgs i with
        | some q => pushQF m q [fb]
        | none => m
    | none =>
        let matched := fh.filter fun f => f.messageId == some (toString i)
        if matched ≠ [] then
          match findPrecedingUserMessage msgs i with
          | some q => pushQF m q matched
          | none => m
        else
          fh.foldl (fun m f =>
            if (msg.timestamp - f.timestamp).natAbs < 60000 then
              match findPrecedingUserMessage msgs i with
              | some q => pushQF m q [f]
              | none => m
            else m) m

/-- `matchFeedbackToQuestions`: one shared map across all sessions. -/
def matchFeedbackToQuestions (fh : List Feedback) (sessions : List Session) :
    FileMap (List Feedback) :=
  sessions.foldl (fun m sess =>
    (sess.messages.enum).foldl
      (fun m p => feedbackStep fh sess.messages m p.1 p.2) m) []

structure TopicStat where
  negative : Nat
  total : Nat
  questions : List String
  deriving DecidableEq, Repr

/-- The `topicStats` accumulation of `identifyWeakAreas`: the first three
tokens of each matched question are topic proxies; each associated feedback
bumps the topic's total (and negative) count; up to 5 sample questions are
kept. -/
def topicStats (fh : List Feedback) (sessions : List Session) : FileMap TopicStat :=
  (matchFeedbackToQuestions fh sessions).foldl (fun (ts : FileMap TopicStat) qf =>
    ((tokenize qf.1).take 3).foldl (fun (ts : FileMap TopicStat) term =>
      let stats0 : TopicStat :=
        (lookupFile ts term).getD { negative := 0, total := 0, questions := [] }
      let stats1 : TopicStat := qf.2.foldl (fun st fb =>
        { st with
          total := st.total + 1
          negative := if fb.rating = Rating.negative then st.negative + 1 else st.negative })
        stats0
      let stats2 :=
        if stats1.questions.contains qf.1 = false ∧ stats1.questions.length < 5 then
          { stats1 with questions := stats1.questions ++ [qf.1] }
        else stats1
      writeFile ts term stats2) ts) []

structure WeakArea where
  topic : String
  negativeCount : Nat
  totalCount : Nat
  sampleQuestions : List String
  deriving DecidableEq, Repr

/-- The reporting condition of `identifyWeakAreas`:
`stats.total >= 2 && stats.negative / stats.total >= 0.4` (the JS division is
exact as a rational at the magnitudes involved). -/
def weakThreshold (st : TopicStat) : Prop :=
  2 ≤ st.total ∧ (0.4 : ℚ) ≤ (st.negative : ℚ) / (st.total : ℚ)

instance (st : TopicStat) : Decidable (weakThreshold st) :=
  inferInstanceAs (Decidable (2 ≤ st.total ∧ (0.4 : ℚ) ≤ (st.negative : ℚ) / (st.total : ℚ)))

/-- The weak-area record built from a topic's stats. -/
def mkWeakArea (kv : String × TopicStat) : WeakArea :=
  { topic := kv.1, negativeCount := kv.2.negative,
    totalCount := kv.2.total, sampleQuestions := kv.2.questions }

/-- `identifyWeakAreas`: collect topics over the threshold, sort by
descending negative count. -/
def identifyWeakAreas (fh : List Feedback) (sessions : List Session) : List WeakArea :=
  sortDescBy (fun wa => wa.negativeCount)
    ((topicStats fh sessions).foldl (fun acc kv =>
      if weakThreshold kv.2 then acc ++ [mkWeakArea kv] else acc) [])

/-! ## C9: Q&A response parsing (qa-responder agent, `parseConfidence` /
`parseFollowUps`)

`parseConfidence` runs `/CONFIDENCE:\s*(low|medium|high)/i` over the raw
response: at each position the scanner tries the keyword case-insensitively,
skips whitespace maximally (the alternatives start with letters, so regex
backtracking over `\s*` never helps), and tries the alternatives in regex
order. `parseFollowUps` runs `/FOLLOW_UPS:\s*(.+)/i`: after the keyword and
the whitespace run, `(.+)` captures the rest of the line; when that capture
would be empty the regex can at most capture whitespace, which the
trim-and-filter step erases, so the model treats it as no match — the
observable result (the empty list) agrees. -/

/-- Case-insensitive character-list prefix check (the `/i` flag). -/
def leadsCI : List Char → List Char → Bool
  | [], _ => true
  | _ :: _, [] => false
  | a :: as, b :: bs => (a.toLower == b.toLower) && leadsCI as bs

def confKeyword : List Char := "confidence:".data

def followKeyword : List Char := "follow_ups:".data

/-- The `(low|medium|high)` alternation, tried in regex order. -/
def confAlternatives (s : List Char) : Option String :=
  if leadsCI "low".data s then some "low"
  else if leadsCI "medium".data s then some "medium"
  else if leadsCI "high".data s then some "high"
  else none

/-- The scan of `/CONFIDENCE:\s*(low|medium|high)/i`: first position where
the full pattern matches, yielding the captured level. -/
def scanConfidence : List Char → Option String
  | [] => none
  | c :: rest =>
      if leadsCI confKeyword (c :: rest) then
        match confAlternatives
            (((c :: rest).drop confKeyword.length).dropWhile fun ch => ch.isWhitespace) with
        | some lvl => some lvl
        | none => scanConfidence rest
      else scanConfidence rest

/-- `parseConfidence`. -/
def parseConfidence (response : String) : ℚ :=
  match scanConfidence response.data with
  | none => 0.5
  | some lvl =>
      if lvl = "high" then 0.9
      else if lvl = "medium" then 0.6
      else if lvl = "low" then 0.3
      else 0.5

/-- The scan of `/FOLLOW_UPS:\s*(.+)/i`: first position where the keyword
matches with a non-empty same-line capture after the whitespace run. -/
def scanFollowUps : List Char → Option (List Char)
  | [] => none
  | c :: rest =>
      if leadsCI followKeyword (c :: rest) then
        let captured :=
          (((c :: rest).drop followKeyword.length).dropWhile
              fun ch => ch.isWhitespace).takeWhile fun ch => ¬ ch = '\n'
        if captured = [] then scanFollowUps rest else some captured
      else scanFollowUps rest

/-- Models `q.trim()`. -/
def trimStr (s : String) : String :=
  ⟨((s.data.dropWhile fun c => c.isWhitespace).reverse.dropWhile
      fun c => c.isWhitespace).reverse⟩

/-- `parseFollowUps`: split the captured line on pipes, trim, drop empties. -/
def parseFollowUps (response : String) : List String :=
  match scanFollowUps response.data with
  | none => []
  | some cap =>
      ((splitOnPred (fun c => c == '|') (String.mk cap)).map trimStr).filter
        fun q => 0 < q.length

/-- Does the confidence pattern match at position `i`? -/
def confMatchAt (s : List Char) (i : Nat) : Bool :=
  leadsCI confKeyword (s.drop i) &&
  (confAlternatives
      (((s.drop i).drop confKeyword.length).dropWhile fun ch => ch.isWhitespace)).isSome

/-- Does the follow-ups pattern match at position `i` (with something on the
line to capture)? -/
def followMatchAt (s : List Char) (i : Nat) : Bool :=
  leadsCI followKeyword (s.drop i) &&
  !((((s.drop i).drop followKeyword.length).dropWhile
      fun ch => ch.isWhitespace).takeWhile fun ch => ¬ ch = '\n').isEmpty

/-! ## Theorems -/

theorem insertDescBy_perm {α β : Type} [LinearOrder β] (key : α → β) (x : α)
    (l : List α) : (insertDescBy key x l).Perm (x :: l) := by
  induction l with
  | nil => simp [insertDescBy]
  | cons y ys ih =>
      by_cases h : key y < key x
      · simp [insertDescBy, h]
      · simp only [insertDescBy, if_neg h]
        exact (List.Perm.cons y ih).trans (List.Perm.swap x y ys)

theorem sortDescBy_perm {α β : Type} [LinearOrder β] (key : α → β) (l : List α) :
    (sortDescBy key l).Perm l := by
  suffices h : ∀ (l acc : List α),
      (l.foldl (fun acc x => insertDescBy key x acc) acc).Perm (acc ++ l) by
    simpa using h l []
  intro l
  induction l with
  | nil => simp
  | cons x xs ih =>
      intro acc
      refine (ih _).trans ?_
      refine ((insertDescBy_perm key x acc).append_right xs).trans ?_
      simpa using (@List.perm_middle _ x acc xs).symm

theorem insertDescBy_pairwise {α β : Type} [LinearOrder β] (key : α → β) (x : α)
    (l : List α) (h : l.Pairwise fun a b => key b ≤ key a) :
    (insertDescBy key x l).Pairwise fun a b => key b ≤ key a := by
  induction l with
  | nil => simp [insertDescBy]
  | cons y ys ih =>
      rcases List.pairwise_cons.mp h with ⟨hy, hys⟩
      by_cases hk : key y < key x
      · rw [insertDescBy, if_pos hk]
        refine List.pairwise_cons.mpr ⟨?_, h⟩
        intro z hz
        rcases List.mem_cons.mp hz with hz | hz
        · exact hz ▸ le_of_lt hk
        · exact le_trans (hy z hz) (le_of_lt hk)
      · rw [insertDescBy, if_neg hk]
        refine List.pairwise_cons.mpr ⟨?_, ih hys⟩
        intro z hz
        have hz' := (insertDescBy_perm key x ys).mem_iff.mp hz
        rcases List.mem_cons.mp hz' with hz' | hz'
        · exact hz' ▸ le_of_not_lt hk
        · exact hy z hz'

theorem sortDescBy_pairwise {α β : Type} [LinearOrder β] (key : α → β) (l : List α) :
    (sortDescBy key l).Pairwise fun a b => key b ≤ key a := by
  suffices h : ∀ (l acc : List α), (acc.Pairwise fun a b => key b ≤ key a) →
      (l.foldl (fun acc x => insertDescBy key x acc) acc).Pairwise
        fun a b => key b ≤ key a by
    exact h l [] List.Pairwise.nil
  intro l
  induction l with
  | nil => intro acc hacc; simpa using hacc
  | cons x xs ih =>
      intro acc hacc
      exact ih _ (insertDescBy_pairwise key x acc hacc)

/-- A fold that appends `f x` for each `x` passing the filter `p` builds the
filtered, mapped list. -/
theorem foldl_filter_append {α γ : Type} (p : α → Prop) [DecidablePred p]
    (f : α → γ) (l : List α) (acc : List γ) :
    (l.foldl (fun acc x => if p x then acc ++ [f x] else acc) acc)
      = acc ++ (l.filter fun x => decide (p x)).map f := by
  induction l generalizing acc with
  | nil => simp
  | cons x xs ih =>
      by_cases hx : p x
      · simp [List.foldl_cons, hx, ih, List.filter_cons]
      · simp [List.foldl_cons, hx, ih, List.filter_cons]

/-! ## C1: deduplication in `addEntry` -/

theorem dupPred_iff (e d : KnowledgeEntry) :
    dupPred e d = true ↔ dedupKey d = dedupKey e := by
  simp [dupPred, dedupKey, Prod.ext_iff, and_assoc]

theorem dupPred_congr {e1 e2 : KnowledgeEntry}
    (h : dedupKey e1 = dedupKey e2) : dupPred e1 = dupPred e2 := by
  funext d
  by_cases h1 : dupPred e1 d = true
  · have h2 : dupPred e2 d = true := (dupPred_iff e2 d).mpr (((dupPred_iff e1 d).mp h1).trans h)
    rw [h1, h2]
  · have h2 : ¬ dupPred e2 d = true := fun hc =>
      h1 ((dupPred_iff e1 d).mpr (((dupPred_iff e2 d).mp hc).trans h.symm))
    simp only [Bool.not_eq_true] at h1 h2
    rw [h1, h2]

theorem findDuplicate_eq_none_iff (s : StoreFs) (e : KnowledgeEntry) :
    findDuplicate s e = none ↔ ∀ d ∈ getAllEntries s, dedupKey d ≠ dedupKey e := by
  rw [findDuplicate, List.find?_eq_none]
  constructor
  · intro h d hd hk
    exact h d hd ((dupPred_iff e d).mpr hk)
  · intro h d hd hp
    exact h d hd ((dupPred_iff e d).mp hp)

theorem findDuplicate_eq_some {s : StoreFs} {e d : KnowledgeEntry}
    (h : findDuplicate s e = some d) :
    d ∈ getAllEntries s ∧ dedupKey d = dedupKey e :=
  ⟨List.mem_of_find?_eq_some h, (dupPred_iff e d).mp (List.find?_some h)⟩

theorem lookupFile_eq_none_iff {α : Type} (m : FileMap α) (k : String) :
    lookupFile m k = none ↔ ∀ kv ∈ m, kv.1 ≠ k := by
  rw [lookupFile, Option.map_eq_none', List.find?_eq_none]
  constructor
  · intro h kv hkv; simpa using h kv hkv
  · intro h kv hkv; simpa using h kv hkv

theorem writeFile_of_not_mem {α : Type} {m : FileMap α} {k : String}
    (h : lookupFile m k = none) (v : α) : writeFile m k v = m ++ [(k, v)] := by
  induction m with
  | nil => rfl
  | cons kv rest ih =>
      have hk : kv.1 ≠ k := (lookupFile_eq_none_iff _ _).mp h kv (by simp)
      have hrest : lookupFile rest k = none := by
        rw [lookupFile_eq_none_iff]
        intro kv2 hkv2
        exact (lookupFile_eq_none_iff _ _).mp h kv2 (by simp [hkv2])
      simp [writeFile, hk, ih hrest]

/-- After writing an entry matching the dedup predicate into a directory with
no matching entry, the written record is the unique (hence first) match. -/
theorem find?_writeFile_some {m : FileMap (Option KnowledgeEntry)} {p : KnowledgeEntry → Bool}
    {eF : KnowledgeEntry} (k : String)
    (hnone : ∀ d ∈ m.filterMap (fun kv => kv.2), p d = false)
    (hp : p eF = true) :
    ((writeFile m k (some eF)).filterMap fun kv => kv.2).find? p = some eF := by
  induction m with
  | nil => simp [writeFile, List.find?, hp]
  | cons kv rest ih =>
      by_cases hk : kv.1 = k
      · simp only [writeFile, if_pos hk, List.filterMap_cons, List.find?, hp]
      · have hrest : ∀ d ∈ rest.filterMap (fun kv => kv.2), p d = false := by
          intro d hd
          refine hnone d ?_
          rcases hkv : kv.2 with _ | e <;> simp [List.filterMap_cons, hkv, hd]
        simp only [writeFile, if_neg hk]
        rcases hkv : kv.2 with _ | e
        · simpa [List.filterMap_cons, hkv] using ih hrest
        · have he : p e = false := hnone e (by simp [List.filterMap_cons, hkv])
          simpa [List.filterMap_cons, hkv, List.find?, he] using ih hrest

theorem addEntry_of_dup {s : StoreFs} {e d0 : KnowledgeEntry} {fid now : String}
    (hfd : findDuplicate s e = some d0) :
    addEntry s e fid now = ((d0.id, true), s) := by
  unfold addEntry
  rw [hfd]

theorem addEntry_of_no_dup {s : StoreFs} {e : KnowledgeEntry} {fid now : String}
    (hfd : findDuplicate s e = none) :
    addEntry s e fid now =
      ((assignedId e fid, false),
       { entryFiles := writeFile s.entryFiles (assignedId e fid) (some (fixEntry e fid now))
         indexFile := some (some
           { entries := (getIndex s now).entries ++ [toIndexEntry (fixEntry e fid now)]
             lastUpdated := now
             totalEntries :=
               ((getIndex s now).entries ++ [toIndexEntry (fixEntry e fid now)]).length }) }) := by
  unfold addEntry
  rw [hfd]
  rfl

/-- Helper for C1: a second `addEntry` with the same dedup key always
deduplicates against the first call's outcome: same returned id, flag set,
no state change. -/
theorem addEntry_second_dedups (s : StoreFs) (e e2 : KnowledgeEntry)
    (fid now fid2 now2 : String) (hkey : dedupKey e2 = dedupKey e) :
    addEntry (addEntry s e fid now).2 e2 fid2 now2 =
      (((addEntry s e fid now).1.1, true), (addEntry s e fid now).2) := by
  rcases hfd : findDuplicate s e with _ | d0
  · -- first call wrote a record carrying e's dedup key; the second call
    -- finds it as the unique match
    rw [addEntry_of_no_dup hfd]
    have hnone : ∀ d ∈ s.entryFiles.filterMap (fun kv => kv.2), dupPred e2 d = false := by
      intro d hd
      have hne := (findDuplicate_eq_none_iff s e).mp hfd d hd
      by_cases hb : dupPred e2 d = true
      · exact absurd (((dupPred_iff e2 d).mp hb).trans hkey) hne
      · simpa using hb
    have hpF : dupPred e2 (fixEntry e fid now) = true :=
      (dupPred_iff e2 _).mpr ((rfl : dedupKey (fixEntry e fid now) = dedupKey e).trans hkey.symm)
    have hfd2 : findDuplicate
        ({ entryFiles := writeFile s.entryFiles (assignedId e fid) (some (fixEntry e fid now))
           indexFile := some (some
             { entries := (getIndex s now).entries ++ [toIndexEntry (fixEntry e fid now)]
               lastUpdated := now
               totalEntries :=
                 ((getIndex s now).entries ++ [toIndexEntry (fixEntry e fid now)]).length }) } : StoreFs)
        e2 = some (fixEntry e fid now) := by
      rw [findDuplicate]
      exact find?_writeFile_some (assignedId e fid) hnone hpF
    rw [addEntry_of_dup hfd2]
    rfl
  · -- first call deduplicated: state unchanged, and the second call finds
    -- the same first match
    have hfd2 : findDuplicate s e2 = some d0 := by
      rw [findDuplicate, dupPred_congr hkey, ← findDuplicate]
      exact hfd
    rw [addEntry_of_dup hfd, addEntry_of_dup hfd2]

/-- C1: if the store already holds an entry with the same dedup key, `addEntry`
returns an existing matching entry's id with the `deduplicated` flag and
performs no write; consequently two `addEntry` calls with the same
`(title lower-cased, source.type, source.path)` triple return the same id
both times, the second call is always a no-write dedup, and — starting with
no duplicate present and a fresh assigned id — the entry-record count grows
by exactly 1, not 2. (When several stored entries carry the key, the id
returned is the first match's, which the existential captures.) -/
theorem addEntry_dedup_idempotent (s : StoreFs) (e e2 : KnowledgeEntry)
    (fid now fid2 now2 : String) :
    ((∃ d ∈ getAllEntries s, dedupKey d = dedupKey e) →
       (addEntry s e fid now).2 = s ∧ (addEntry s e fid now).1.2 = true ∧
       ∃ d ∈ getAllEntries s, dedupKey d = dedupKey e ∧
         (addEntry s e fid now).1.1 = d.id) ∧
    (dedupKey e2 = dedupKey e →
       (addEntry (addEntry s e fid now).2 e2 fid2 now2).1.1
           = (addEntry s e fid now).1.1 ∧
       (addEntry (addEntry s e fid now).2 e2 fid2 now2).1.2 = true ∧
       (addEntry (addEntry s e fid now).2 e2 fid2 now2).2
           = (addEntry s e fid now).2) ∧
    (dedupKey e2 = dedupKey e →
       (¬ ∃ d ∈ getAllEntries s, dedupKey d = dedupKey e) →
       lookupFile s.entryFiles (assignedId e fid) = none →
       (getAllEntries (addEntry (addEntry s e fid now).2 e2 fid2 now2).2).length
         = (getAllEntries s).length + 1) := by
  refine ⟨?_, ?_, ?_⟩
  · rintro ⟨d, hd, hk⟩
    rcases hfd : findDuplicate s e with _ | d0
    · exact absurd hk ((findDuplicate_eq_none_iff s e).mp hfd d hd)
    · rcases findDuplicate_eq_some hfd with ⟨hd0, hk0⟩
      rw [addEntry_of_dup hfd]
      exact ⟨rfl, rfl, d0, hd0, hk0, rfl⟩
  · intro hkey
    rw [addEntry_second_dedups s e e2 fid now fid2 now2 hkey]
    exact ⟨rfl, rfl, rfl⟩
  · intro hkey hnodup hfresh
    have hfd : findDuplicate s e = none := by
      rw [findDuplicate_eq_none_iff]
      intro d hd hk
      exact hnodup ⟨d, hd, hk⟩
    rw [addEntry_second_dedups s e e2 fid now fid2 now2 hkey,
        addEntry_of_no_dup hfd]
    show ((writeFile s.entryFiles (assignedId e fid)
        (some (fixEntry e fid now))).filterMap fun kv => kv.2).length
      = (getAllEntries s).length + 1
    rw [writeFile_of_not_mem hfresh, List.filterMap_append]
    simp [getAllEntries]

theorem addEntry_dedup_idempotent_witness :
    ((addEntry wDupStore wAuthEntry2 "u1" "t1").2 = wDupStore ∧
     (addEntry wDupStore wAuthEntry2 "u1" "t1").1.2 = true) ∧
    ((addEntry (addEntry wEmptyStore wAuthEntry2 "u1" "t1").2 wAuthEntry2 "u2" "t2").1.1
        = (addEntry wEmptyStore wAuthEntry2 "u1" "t1").1.1) ∧
    (getAllEntries
        (addEntry (addEntry wEmptyStore wAuthEntry2 "u1" "t1").2 wAuthEntry2 "u2" "t2").2).length
        = (getAllEntries wEmptyStore).length + 1 := by
  refine ⟨?_, ?_, ?_⟩
  · have h := (addEntry_dedup_idempotent wDupStore wAuthEntry2 wAuthEntry2 "u1" "t1" "u1" "t1").1
      ⟨wAuthEntry, List.mem_cons_self wAuthEntry [], by decide⟩
    exact ⟨h.1, h.2.1⟩
  · exact ((addEntry_dedup_idempotent wEmptyStore wAuthEntry2 wAuthEntry2
      "u1" "t1" "u2" "t2").2.1 rfl).1
  · refine (addEntry_dedup_idempotent wEmptyStore wAuthEntry2 wAuthEntry2
      "u1" "t1" "u2" "t2").2.2 rfl ?_ rfl
    rintro ⟨d, hd, -⟩
    simp [getAllEntries, wEmptyStore] at hd

/-! ## C10: not-found behaviour of `updateEntry` / `deleteEntry` -/

/-- C10: for an id with no entry record on disk, `updateEntry` returns `null`
and `deleteEntry` returns `false`, and neither performs any write: the store
state (entry files and index file) is unchanged. -/
theorem notFound_no_write (s : StoreFs) (id : String) (u : EntryUpdates)
    (now : String) (habs : lookupFile s.entryFiles id = none) :
    updateEntry s id u now = (none, s) ∧ deleteEntry s id now = (false, s) := by
  constructor
  · have hge : getEntry s id = none := by
      unfold getEntry
      rw [habs]
    unfold updateEntry
    rw [hge]
  · unfold deleteEntry
    rw [if_pos habs]

theorem notFound_no_write_witness :
    updateEntry emptyStoreFs "missing" noUpdates "t1" = (none, emptyStoreFs) ∧
    deleteEntry emptyStoreFs "missing" "t1" = (false, emptyStoreFs) :=
  notFound_no_write emptyStoreFs "missing" noUpdates "t1" (by decide)

/-- C7: coverage is always within [0,100]; with at least one entry it equals
`min 100 (min 80 (entryCount*20) + (questions > 0 ? min 20 (questions*10) : 0))`,
and with zero entries it is 0 regardless of the question count. -/
theorem categoryCoverage_bounds (entryCount questionsAsked : Nat) :
    categoryCoverage entryCount questionsAsked ≤ 100 ∧
    (entryCount > 0 →
      categoryCoverage entryCount questionsAsked =
        min 100 (min 80 (entryCount * 20) +
          (if questionsAsked > 0 then min 20 (questionsAsked * 10) else 0))) ∧
    (entryCount = 0 → categoryCoverage entryCount questionsAsked = 0) := by
  unfold categoryCoverage
  refine ⟨?_, ?_, ?_⟩
  · exact min_le_left 100 _
  · intro h
    rw [if_pos h]
  · intro h
    subst h
    rfl

theorem categoryCoverage_bounds_witness :
    categoryCoverage 3 1 ≤ 100 ∧
    categoryCoverage 3 1 = min 100 (min 80 60 + min 20 10) ∧
    categoryCoverage 0 7 = 0 := by
  refine ⟨(categoryCoverage_bounds 3 1).1, ?_, (categoryCoverage_bounds 0 7).2.2 rfl⟩
  have h := (categoryCoverage_bounds 3 1).2.1 (by decide)
  simpa using h

/-- C3 counterexample: with old content `{}` and new content `[]`, the
truncated (empty) file state is observable during `writeJSON`'s in-place
`writeFileSync`, and it is neither the old nor the new content — the write
is not atomic from a concurrent reader's point of view. -/
theorem writeJSON_torn_state :
    ∃ s ∈ writeFileObservable ['{', '}'] ['[', ']'],
      s ∉ atomicObservable ['{', '}'] ['[', ']'] := by
  refine ⟨[], by decide, by decide⟩

theorem listLeads_take (l : List Char) : ∀ k : Nat, listLeads (l.take k) l = true := by
  induction l with
  | nil => intro k; cases k <;> rfl
  | cons c rest ih =>
      intro k
      cases k with
      | zero => rfl
      | succ k => simpa [listLeads] using ih k

/-- C3 amended: during `writeJSON` a concurrent reader observes the old
content or some prefix of the new content (including the empty truncated
file); the first observable state is the old content and the final one is
the complete new content. Atomicity as claimed does not hold
(`writeJSON_torn_state`). -/
theorem writeJSON_observable_spec (oldContent newContent : List Char) :
    (writeFileObservable oldContent newContent).head? = some oldContent ∧
    (writeFileObservable oldContent newContent).getLast? = some newContent ∧
    ∀ s ∈ writeFileObservable oldContent newContent,
      s = oldContent ∨ listLeads s newContent = true := by
  refine ⟨rfl, ?_, ?_⟩
  · rw [writeFileObservable, List.range_succ, List.map_append, ← List.cons_append]
    simp only [List.map_cons, List.map_nil]
    rw [List.getLast?_concat]
    simp
  · intro s hs
    rcases List.mem_cons.mp hs with hs | hs
    · exact Or.inl hs
    · rcases List.mem_map.mp hs with ⟨k, _, hk⟩
      exact Or.inr (hk ▸ listLeads_take newContent k)

theorem writeJSON_observable_spec_witness :
    (writeFileObservable ['{', '}'] ['[', ']']).head? = some ['{', '}'] ∧
    (writeFileObservable ['{', '}'] ['[', ']']).getLast? = some ['[', ']'] ∧
    ([] = ['{', '}'] ∨ listLeads [] ['[', ']'] = true) :=
  ⟨(writeJSON_observable_spec _ _).1,
   (writeJSON_observable_spec _ _).2.1,
   (writeJSON_observable_spec ['{', '}'] ['[', ']']).2.2 [] (by decide)⟩

/-- C4: the acquisition contract. A timeout is only reported once the 5000ms
ceiling has elapsed (each consumed observation waits at most one 50ms retry
interval, so a timeout needs the elapsed time plus the possible waits to
reach the ceiling); success happens exactly by creating the marker in a race
the process wins; an unparseable marker, or one whose recorded time is older
than the ceiling, is removed and acquisition retried immediately; a fresh
held marker and a lost creation race sleep one 50ms interval before
retrying. -/
theorem fileLock_acquire_contract :
    (∀ start now obs, acquireRun start obs now = .timeout →
        LOCK_TIMEOUT_MS ≤ now - start + LOCK_RETRY_MS * obs.length) ∧
    (∀ start now obs, acquireRun start obs now = .acquired →
        obs.any (fun o => o.marker == none && o.winRace) = true) ∧
    (∀ start now rest, now - start < LOCK_TIMEOUT_MS →
        acquireRun start ({ marker := none, winRace := true } :: rest) now
          = .acquired) ∧
    (∀ start now rest w, now - start < LOCK_TIMEOUT_MS →
        acquireRun start ({ marker := some none, winRace := w } :: rest) now
          = acquireRun start rest now) ∧
    (∀ start now rest w t, now - start < LOCK_TIMEOUT_MS →
        LOCK_TIMEOUT_MS < now - t →
        acquireRun start ({ marker := some (some t), winRace := w } :: rest) now
          = acquireRun start rest now) ∧
    (∀ start now rest w t, now - start < LOCK_TIMEOUT_MS →
        ¬ LOCK_TIMEOUT_MS < now - t →
        acquireRun start ({ marker := some (some t), winRace := w } :: rest) now
          = acquireRun start rest (now + LOCK_RETRY_MS)) ∧
    (∀ start now rest, now - start < LOCK_TIMEOUT_MS →
        acquireRun start ({ marker := none, winRace := false } :: rest) now
          = acquireRun start rest (now + LOCK_RETRY_MS)) ∧
    (∀ start now obs, LOCK_TIMEOUT_MS ≤ now - start →
        acquireRun start obs now = .timeout) := by
  have hnotle : ∀ now start : Int, now - start < LOCK_TIMEOUT_MS →
      ¬ LOCK_TIMEOUT_MS ≤ now - start := fun _ _ h => not_le.mpr h
  refine ⟨?_, ?_, ?_, ?_, ?_, ?_, ?_, ?_⟩
  · intro start now obs
    induction obs generalizing now with
    | nil =>
        intro h
        by_cases h5 : LOCK_TIMEOUT_MS ≤ now - start
        · simpa using h5
        · rw [acquireRun, if_neg h5] at h
          exact absurd h (by simp)
    | cons o rest ih =>
        intro h
        have hr : (0 : Int) ≤ LOCK_RETRY_MS := by norm_num [LOCK_RETRY_MS]
        have hexp : LOCK_RETRY_MS * (((o :: rest).length : Nat) : Int)
            = LOCK_RETRY_MS * ((rest.length : Nat) : Int) + LOCK_RETRY_MS := by
          push_cast [List.length_cons]
          ring
        by_cases h5 : LOCK_TIMEOUT_MS ≤ now - start
        · have hnn : (0 : Int) ≤ LOCK_RETRY_MS * (((o :: rest).length : Nat) : Int) :=
            mul_nonneg hr (by positivity)
          linarith
        · rw [acquireRun, if_neg h5] at h
          rcases homk : o.marker with _ | mk
          · simp only [homk] at h
            by_cases hw : o.winRace
            · rw [if_pos hw] at h
              exact absurd h (by simp)
            · rw [if_neg hw] at h
              have hih := ih _ h
              rw [hexp]
              linarith
          · rcases mk with _ | t
            · simp only [homk] at h
              have hih := ih _ h
              rw [hexp]
              linarith
            · simp only [homk] at h
              by_cases hst : LOCK_TIMEOUT_MS < now - t
              · rw [if_pos hst] at h
                have hih := ih _ h
                rw [hexp]
                linarith
              · rw [if_neg hst] at h
                have hih := ih _ h
                rw [hexp]
                linarith
  · intro start now obs
    induction obs generalizing now with
    | nil =>
        intro h
        by_cases h5 : LOCK_TIMEOUT_MS ≤ now - start
        · rw [acquireRun, if_pos h5] at h
          exact absurd h (by simp)
        · rw [acquireRun, if_neg h5] at h
          exact absurd h (by simp)
    | cons o rest ih =>
        intro h
        by_cases h5 : LOCK_TIMEOUT_MS ≤ now - start
        · rw [acquireRun, if_pos h5] at h
          exact absurd h (by simp)
        · rw [acquireRun, if_neg h5] at h
          rcases homk : o.marker with _ | mk
          · simp only [homk] at h
            by_cases hw : o.winRace
            · simp [List.any_cons, homk, hw]
            · rw [if_neg hw] at h
              simp [List.any_cons, ih _ h]
          · rcases mk with _ | t
            · simp only [homk] at h
              simp [List.any_cons, ih _ h]
            · simp only [homk] at h
              by_cases hst : LOCK_TIMEOUT_MS < now - t
              · rw [if_pos hst] at h
                simp [List.any_cons, ih _ h]
              · rw [if_neg hst] at h
                simp [List.any_cons, ih _ h]
  · intro start now rest h
    rw [acquireRun, if_neg (hnotle now start h)]
    rfl
  · intro start now rest w h
    rw [acquireRun, if_neg (hnotle now start h)]
  · intro start now rest w t h hst
    rw [acquireRun, if_neg (hnotle now start h)]
    exact if_pos hst
  · intro start now rest w t h hst
    rw [acquireRun, if_neg (hnotle now start h)]
    exact if_neg hst
  · intro start now rest h
    rw [acquireRun, if_neg (hnotle now start h)]
    rfl
  · intro start now obs h
    rw [acquireRun.eq_def, if_pos h]

theorem fileLock_acquire_contract_witness :
    acquireRun 0 [{ marker := none, winRace := true }] 0 = .acquired ∧
    acquireRun 0 [{ marker := some none, winRace := false },
                  { marker := none, winRace := true }] 0 = .acquired ∧
    acquireRun 0 [{ marker := some (some (-6000)), winRace := false },
                  { marker := none, winRace := true }] 0 = .acquired ∧
    acquireRun 0 [{ marker := some (some 0), winRace := false }] 0
      = acquireRun 0 [] 50 ∧
    acquireRun 0 [] 6000 = .timeout := by
  refine ⟨?_, ?_, ?_, ?_, ?_⟩
  · exact fileLock_acquire_contract.2.2.1 0 0 [] (by decide)
  · rw [fileLock_acquire_contract.2.2.2.1 0 0 _ false (by decide)]
    exact fileLock_acquire_contract.2.2.1 0 0 [] (by decide)
  · rw [fileLock_acquire_contract.2.2.2.2.1 0 0 _ false (-6000) (by decide) (by decide)]
    exact fileLock_acquire_contract.2.2.1 0 0 [] (by decide)
  · exact fileLock_acquire_contract.2.2.2.2.2.1 0 0 [] false 0 (by decide) (by decide)
  · exact fileLock_acquire_contract.2.2.2.2.2.2.2 0 6000 [] (by decide)

theorem rawScore_eq_spec (query : String) (entry : KnowledgeEntry) :
    rawScore query entry = specRawScore query entry := by
  have haux : ∀ (l : List String) (base : Nat),
      l.foldl (fun sc term =>
        sc + (if strContains (strLower entry.title) term then 3 else 0)
           + (if strContains (strLower entry.content) term then 1 else 0)
           + (if (entry.tags.map strLower).contains term then 4 else 0)
           + (if strContains (strLower entry.category) term then 2 else 0)) base
      = base + (l.map (specTermPoints entry)).sum := by
    intro l
    induction l with
    | nil => intro base; simp
    | cons x xs ih =>
        intro base
        rw [List.foldl_cons, List.map_cons, List.sum_cons, ih]
        unfold specTermPoints
        omega
  simp only [rawScore]
  rw [haux]
  rfl

/-- C5: `findRelevantEntries` computes exactly the ranking the specification
describes: zero-term queries return the first `limit` entries unscored;
otherwise each entry's score is the phrase/term formula times its confidence,
non-positive scores are excluded, survivors are sorted descending by score,
and the result is truncated to `limit`. -/
theorem findRelevantEntries_matches_spec (query : String)
    (entries : List KnowledgeEntry) (limit : Nat) :
    findRelevantEntries query entries limit = rankSpec query entries limit := by
  unfold findRelevantEntries rankSpec
  by_cases h : rankTerms query = []
  · rw [if_pos h, if_pos h]
  · rw [if_neg h, if_neg h]
    have hmap : (entries.map fun entry =>
        (entry, (rawScore query entry : ℚ) * entry.confidence))
        = entries.map fun e => (e, specScore query e) := by
      refine List.map_congr_left fun e _ => ?_
      rw [specScore, rawScore_eq_spec]
    rw [hmap]

/-- Helper for C6: the ranked output is sorted by descending final score. -/
theorem findRelevantEntries_sorted (query : String) (entries : List KnowledgeEntry)
    (limit : Nat) (hterms : rankTerms query ≠ []) :
    (findRelevantEntries query entries limit).Pairwise fun a b =>
      (rawScore query b : ℚ) * b.confidence ≤ (rawScore query a : ℚ) * a.confidence := by
  unfold findRelevantEntries
  rw [if_neg hterms]
  set f : KnowledgeEntry → ℚ := fun x => (rawScore query x : ℚ) * x.confidence with hf
  set scored := entries.map fun entry => (entry, f entry) with hscored
  have hval : ∀ p ∈ sortDescBy (fun s : KnowledgeEntry × ℚ => s.2)
      (scored.filter fun s => 0 < s.2), p.2 = f p.1 := by
    intro p hp
    have hp2 := (sortDescBy_perm (fun s : KnowledgeEntry × ℚ => s.2) _).mem_iff.mp hp
    have hp3 := List.mem_of_mem_filter hp2
    rcases List.mem_map.mp hp3 with ⟨e, _, he⟩
    rw [← he]
  have hpw : (sortDescBy (fun s : KnowledgeEntry × ℚ => s.2)
      (scored.filter fun s => 0 < s.2)).Pairwise fun a b => f b.1 ≤ f a.1 := by
    refine (sortDescBy_pairwise (fun s : KnowledgeEntry × ℚ => s.2) _).imp_of_mem ?_
    intro a b ha hb hab
    rw [← hval a ha, ← hval b hb]
    exact hab
  have htake := hpw.sublist (List.take_sublist limit _)
  exact List.pairwise_map.mpr htake

/-- C6: for a query with at least one term, and two entries identical except
for confidences 1 and 1/2 that share the same positive raw textual score, the
confidence-1 entry never appears after the confidence-1/2 entry in the output
of `findRelevantEntries`. -/
theorem ranking_monotone_confidence (query : String) (es : List KnowledgeEntry)
    (limit : Nat) (e : KnowledgeEntry)
    (hterms : rankTerms query ≠ [])
    (hraw : 0 < rawScore query e) :
    neverRanksAfter (findRelevantEntries query es limit)
      { e with confidence := 1 } { e with confidence := 1/2 } := by
  intro i j hi hj hgi hgj
  by_contra hij
  push_neg at hij
  have hpw := findRelevantEntries_sorted query es limit hterms
  have hS : (0 : ℚ) < (rawScore query e : ℚ) := by exact_mod_cast hraw
  rcases lt_or_eq_of_le hij with hlt | heq
  · have hrel := (List.pairwise_iff_get.mp hpw) ⟨i, hi⟩ ⟨j, hj⟩ hlt
    rw [hgi, hgj] at hrel
    have h10 : rawScore query { e with confidence := (1 : ℚ) } = rawScore query e := rfl
    have h05 : rawScore query { e with confidence := (1 : ℚ)/2 } = rawScore query e := rfl
    simp only [h10, h05] at hrel
    norm_num at hrel
    nlinarith
  · subst heq
    have hwb : ({ e with confidence := (1 : ℚ)/2 } : KnowledgeEntry)
        = { e with confidence := (1 : ℚ) } := by
      rw [← hgi, ← hgj]
    have hc := congrArg KnowledgeEntry.confidence hwb
    norm_num at hc

theorem ranking_monotone_confidence_witness :
    rankTerms "authentication" ≠ [] ∧
    0 < rawScore "authentication" wRankBase ∧
    neverRanksAfter
      (findRelevantEntries "authentication"
        [{ wRankBase with confidence := 1/2 }, { wRankBase with confidence := 1 }] 10)
      { wRankBase with confidence := 1 } { wRankBase with confidence := 1/2 } :=
  ⟨by decide, by decide,
   ranking_monotone_confidence "authentication"
     [{ wRankBase with confidence := 1/2 }, { wRankBase with confidence := 1 }]
     10 wRankBase (by decide) (by decide)⟩

/-! ## C2: index/entry-set correspondence -/

theorem lookupFile_cons {α : Type} (kv : String × α) (rest : FileMap α) (k : String) :
    lookupFile (kv :: rest) k = if kv.1 == k then some kv.2 else lookupFile rest k := by
  cases h : (kv.1 == k) <;> simp [lookupFile, List.find?, h]

theorem mem_writeFile {α : Type} {m : FileMap α} {k : String} {v : α}
    {kv : String × α} (h : kv ∈ writeFile m k v) : kv ∈ m ∨ kv = (k, v) := by
  induction m with
  | nil =>
      rw [writeFile] at h
      exact Or.inr (List.mem_singleton.mp h)
  | cons kv0 rest ih =>
      rw [writeFile] at h
      by_cases h0 : kv0.1 = k
      · rw [if_pos h0] at h
        rcases List.mem_cons.mp h with h | h
        · exact Or.inr h
        · exact Or.inl (List.mem_cons_of_mem kv0 h)
      · rw [if_neg h0] at h
        rcases List.mem_cons.mp h with h | h
        · exact Or.inl (h ▸ List.mem_cons_self kv0 rest)
        · rcases ih h with h | h
          · exact Or.inl (List.mem_cons_of_mem kv0 h)
          · exact Or.inr h

theorem keys_writeFile_of_mem {α : Type} {m : FileMap α} {k : String}
    (hk : lookupFile m k ≠ none) (v : α) :
    (writeFile m k v).map Prod.fst = m.map Prod.fst := by
  induction m with
  | nil => exact absurd rfl hk
  | cons kv0 rest ih =>
      rw [writeFile]
      by_cases h0 : kv0.1 = k
      · rw [if_pos h0, List.map_cons, List.map_cons, h0]
      · rw [if_neg h0, List.map_cons, List.map_cons, ih]
        rw [lookupFile_cons, if_neg (by simpa using h0)] at hk
        exact hk

theorem getIndex_of_some {s : StoreFs} {idx : KnowledgeIndex} (now : String)
    (h : s.indexFile = some (some idx)) : getIndex s now = idx := by
  unfold getIndex
  rw [h]

/-- Index alignment through an in-place entry rewrite: replacing the index
projection found by id matches rewriting the entry file. -/
theorem index_align_update (m : FileMap (Option KnowledgeEntry)) (k : String)
    (u : KnowledgeEntry) (hwf : FilesWF m)
    (hlk : ∃ e0, lookupFile m k = some (some e0)) :
    (match findIdxOf (fun ie => ie.id == k) ((m.filterMap fun kv => kv.2).map toIndexEntry) with
     | some p => ((m.filterMap fun kv => kv.2).map toIndexEntry).set p (toIndexEntry u)
     | none => (m.filterMap fun kv => kv.2).map toIndexEntry)
    = ((writeFile m k (some u)).filterMap fun kv => kv.2).map toIndexEntry := by
  induction m with
  | nil =>
      rcases hlk with ⟨e0, he0⟩
      exact absurd he0 (by rw [lookupFile]; simp)
  | cons kv rest ih =>
      rcases hwf kv (List.mem_cons_self kv rest) with ⟨e0, he0, hid0⟩
      have hwfr : FilesWF rest := fun kv2 h2 => hwf kv2 (List.mem_cons_of_mem kv h2)
      by_cases h0 : kv.1 = k
      · rw [writeFile, if_pos h0]
        simp only [List.filterMap_cons, he0, List.map_cons, findIdxOf]
        rw [if_pos (by simp [toIndexEntry, hid0, h0])]
        rfl
      · rw [writeFile, if_neg h0]
        rcases hlk with ⟨e0', he0'⟩
        rw [lookupFile_cons, if_neg (by simpa using h0)] at he0'
        have ihr := ih hwfr ⟨e0', he0'⟩
        simp only [List.filterMap_cons, he0, List.map_cons, findIdxOf]
        rw [if_neg (by simp [toIndexEntry, hid0, h0])]
        rcases hfi : findIdxOf (fun ie => ie.id == k)
            ((rest.filterMap fun kv => kv.2).map toIndexEntry) with _ | p
        · have ihr2 : (rest.filterMap fun kv => kv.2).map toIndexEntry
              = ((writeFile rest k (some u)).filterMap fun kv => kv.2).map toIndexEntry := by
            rw [hfi] at ihr
            simpa using ihr
          rw [hfi]
          simpa using ihr2
        · have ihr2 : ((rest.filterMap fun kv => kv.2).map toIndexEntry).set p (toIndexEntry u)
              = ((writeFile rest k (some u)).filterMap fun kv => kv.2).map toIndexEntry := by
            rw [hfi] at ihr
            simpa using ihr
          rw [hfi]
          simp only [Option.map_some']
          rw [List.set_cons_succ, ihr2]

/-- Index alignment through an entry-file removal: filtering the index rows
by id matches removing the entry file. -/
theorem index_align_delete (m : FileMap (Option KnowledgeEntry)) (k : String)
    (hwf : FilesWF m) :
    ((m.filterMap fun kv => kv.2).map toIndexEntry).filter (fun ie => ¬ ie.id = k)
      = ((removeFile m k).filterMap fun kv => kv.2).map toIndexEntry := by
  induction m with
  | nil => rfl
  | cons kv rest ih =>
      rcases hwf kv (List.mem_cons_self kv rest) with ⟨e0, he0, hid0⟩
      have hwfr : FilesWF rest := fun kv2 h2 => hwf kv2 (List.mem_cons_of_mem kv h2)
      by_cases h0 : kv.1 = k
      · rw [removeFile, List.filter_cons]
        simp only [List.filterMap_cons, he0, List.map_cons, List.filter_cons]
        rw [if_neg (by simp [toIndexEntry, hid0, h0]), if_neg (by simp [h0])]
        exact ih hwfr
      · rw [removeFile, List.filter_cons]
        simp only [List.filterMap_cons, he0, List.map_cons, List.filter_cons]
        rw [if_pos (by simp [toIndexEntry, hid0, h0]), if_pos (by simp [h0])]
        simp only [List.filterMap_cons, he0, List.map_cons]
        rw [ih hwfr]
        rfl

theorem goodState_add {s : StoreFs} (e : KnowledgeEntry) (fid now : String)
    (hg : GoodState s)
    (hfresh : findDuplicate s e = none → lookupFile s.entryFiles (assignedId e fid) = none) :
    GoodState (addEntry s e fid now).2 := by
  rcases hg with ⟨hwf, hnd, lu, hidx⟩
  rcases hfd : findDuplicate s e with _ | d0
  · specialize hfresh hfd
    rw [addEntry_of_no_dup hfd]
    rw [getIndex_of_some now hidx]
    have hwr := writeFile_of_not_mem hfresh (some (fixEntry e fid now))
    refine ⟨?_, ?_, now, ?_⟩
    · intro kv hkv
      rw [hwr] at hkv
      rcases List.mem_append.mp hkv with hkv | hkv
      · exact hwf kv hkv
      · rw [List.mem_singleton.mp hkv]
        exact ⟨fixEntry e fid now, rfl, rfl⟩
    · show ((writeFile s.entryFiles (assignedId e fid) _).map Prod.fst).Nodup
      rw [hwr, List.map_append]
      refine List.nodup_append.mpr ⟨hnd, by simp, ?_⟩
      intro a ha hb
      rcases List.mem_map.mp ha with ⟨kv, hkv, hkva⟩
      have := (lookupFile_eq_none_iff _ _).mp hfresh kv hkv
      simp only [List.map_cons, List.map_nil, List.mem_singleton] at hb
      exact this (hkva.trans hb)
    · have hAllNew : (writeFile s.entryFiles (assignedId e fid)
          (some (fixEntry e fid now))).filterMap (fun kv => kv.2)
          = getAllEntries s ++ [fixEntry e fid now] := by
        rw [hwr, List.filterMap_append]
        rfl
      dsimp only
      simp only [getAllEntries]
      rw [hAllNew]
      simp [getAllEntries, List.map_append]
  · rw [addEntry_of_dup hfd]
    exact ⟨hwf, hnd, lu, hidx⟩

theorem updateEntry_of_found {s : StoreFs} {id : String} {existing : KnowledgeEntry}
    (u : EntryUpdates) (now : String) (hge : getEntry s id = some existing) :
    updateEntry s id u now =
      (some (applyUpdates existing u id now),
       { entryFiles := writeFile s.entryFiles id (some (applyUpdates existing u id now))
         indexFile := some (some
           { entries :=
               match findIdxOf (fun ie => ie.id == id) (getIndex s now).entries with
               | some p =>
                   (getIndex s now).entries.set p (toIndexEntry (applyUpdates existing u id now))
               | none => (getIndex s now).entries
             lastUpdated := now
             totalEntries := (getIndex s now).totalEntries }) }) := by
  unfold updateEntry
  rw [hge]
  rfl

theorem deleteEntry_of_found {s : StoreFs} {id : String} (now : String)
    (habs : ¬ lookupFile s.entryFiles id = none) :
    deleteEntry s id now =
      (true,
       { entryFiles := removeFile s.entryFiles id
         indexFile := some (some
           { entries := (getIndex s now).entries.filter (fun ie => ¬ ie.id = id)
             lastUpdated := now
             totalEntries :=
               ((getIndex s now).entries.filter (fun ie => ¬ ie.id = id)).length }) }) := by
  unfold deleteEntry
  rw [if_neg habs]
  rfl

theorem goodState_update {s : StoreFs} (id : String) (u : EntryUpdates) (now : String)
    (hg : GoodState s) : GoodState (updateEntry s id u now).2 := by
  rcases hg with ⟨hwf, hnd, lu, hidx⟩
  rcases hge : getEntry s id with _ | existing
  · unfold updateEntry
    rw [hge]
    exact ⟨hwf, hnd, lu, hidx⟩
  · have hlk : lookupFile s.entryFiles id = some (some existing) := by
      unfold getEntry at hge
      rcases hl : lookupFile s.entryFiles id with _ | c
      · rw [hl] at hge
        exact absurd hge (by simp)
      · rcases c with _ | e2
        · rw [hl] at hge
          exact absurd hge (by simp)
        · rw [hl] at hge
          simp only [Option.some.injEq] at hge
          rw [hge]
    have halign := index_align_update s.entryFiles id (applyUpdates existing u id now)
      hwf ⟨existing, hlk⟩
    have hlen : ((writeFile s.entryFiles id
        (some (applyUpdates existing u id now))).filterMap fun kv => kv.2).length
        = (s.entryFiles.filterMap fun kv => kv.2).length := by
      rcases hfi : findIdxOf (fun ie => ie.id == id)
          ((s.entryFiles.filterMap fun kv => kv.2).map toIndexEntry) with _ | p
      · rw [hfi] at halign
        have := congrArg List.length halign
        simpa using this.symm
      · rw [hfi] at halign
        have := congrArg List.length halign
        simpa using this.symm
    rw [updateEntry_of_found u now hge, getIndex_of_some now hidx]
    refine ⟨?_, ?_, now, ?_⟩
    · intro kv hkv
      rcases mem_writeFile hkv with hkv | hkv
      · exact hwf kv hkv
      · rw [hkv]
        exact ⟨applyUpdates existing u id now, rfl, rfl⟩
    · show ((writeFile s.entryFiles id _).map Prod.fst).Nodup
      rw [keys_writeFile_of_mem (by rw [hlk]; simp)]
      exact hnd
    · dsimp only
      simp only [getAllEntries]
      rw [halign]
      rw [hlen]

theorem goodState_delete {s : StoreFs} (id : String) (now : String)
    (hg : GoodState s) : GoodState (deleteEntry s id now).2 := by
  rcases hg with ⟨hwf, hnd, lu, hidx⟩
  by_cases habs : lookupFile s.entryFiles id = none
  · unfold deleteEntry
    rw [if_pos habs]
    exact ⟨hwf, hnd, lu, hidx⟩
  · have halign := index_align_delete s.entryFiles id hwf
    rw [deleteEntry_of_found now habs, getIndex_of_some now hidx]
    refine ⟨?_, ?_, now, ?_⟩
    · intro kv hkv
      exact hwf kv (List.mem_of_mem_filter hkv)
    · exact ((List.filter_sublist s.entryFiles).map Prod.fst).nodup hnd
    · dsimp only
      simp only [getAllEntries]
      rw [halign]
      simp only [List.length_map]

theorem goodState_init (t0 : String) :
    GoodState (initStore { entryFiles := [], indexFile := none } t0) := by
  refine ⟨?_, ?_, t0, rfl⟩
  · intro kv h
    exact absurd h (List.not_mem_nil kv)
  · exact List.nodup_nil

theorem goodState_runOps (ops : List StoreOp) (s : StoreFs) (hg : GoodState s)
    (hfresh : OpsFresh s ops) : GoodState (runOps s ops) := by
  induction ops generalizing s with
  | nil => exact hg
  | cons op rest ih =>
      rcases hfresh with ⟨hop, hrest⟩
      refine ih (applyOp s op) ?_ hrest
      rcases op with ⟨e, fid, now⟩ | ⟨id, u, now⟩ | ⟨id, now⟩
      · exact goodState_add e fid now hg hop
      · exact goodState_update id u now hg
      · exact goodState_delete id now hg

/-- C2 (amended): starting from an initialized store, after any sequence of
`addEntry` / `updateEntry` / `deleteEntry` operations in which every
`addEntry` that actually writes does so under an id naming no existing entry
record, the maintained index holds exactly the entry set `rebuildIndex`
computes from the records (as a permutation, element-wise by id, title,
category, tags and confidence), and `totalEntries` equals the number of entry
records. Without the freshness proviso the correspondence fails
(`index_consistency_cex`). -/
theorem index_consistency_fresh_ids (t0 now : String) (ops : List StoreOp)
    (hfresh : OpsFresh (initStore { entryFiles := [], indexFile := none } t0) ops) :
    ((getIndex (runOps (initStore { entryFiles := [], indexFile := none } t0) ops) now).entries).Perm
      ((rebuildIndex (runOps (initStore { entryFiles := [], indexFile := none } t0) ops) now).1.entries) ∧
    (getIndex (runOps (initStore { entryFiles := [], indexFile := none } t0) ops) now).totalEntries
      = (getAllEntries (runOps (initStore { entryFiles := [], indexFile := none } t0) ops)).length := by
  rcases goodState_runOps ops _ (goodState_init t0) hfresh with ⟨-, -, lu, hidx⟩
  rw [getIndex_of_some now hidx]
  exact ⟨List.Perm.refl _, rfl⟩

/-- C2 counterexample: two `addEntry` calls recycling the same id "a" for
different facts leave the index claiming 2 entries while a single entry
record exists on disk — the index/entry correspondence of the claim fails
for this operation sequence. -/
theorem index_consistency_cex :
    (getIndex (runOps (initStore { entryFiles := [], indexFile := none } "t0")
        [StoreOp.add wReusedA "u1" "t1", StoreOp.add wReusedB "u2" "t2"]) "t3").totalEntries
      ≠ (getAllEntries (runOps (initStore { entryFiles := [], indexFile := none } "t0")
        [StoreOp.add wReusedA "u1" "t1", StoreOp.add wReusedB "u2" "t2"])).length := by
  decide

theorem index_consistency_fresh_ids_witness :
    ((getIndex (runOps (initStore { entryFiles := [], indexFile := none } "t0")
        [StoreOp.add wAuthEntry "u1" "t1", StoreOp.upd "id-a" wUpdTitle "t2",
         StoreOp.del "missing" "t3"]) "t9").entries).Perm
      ((rebuildIndex (runOps (initStore { entryFiles := [], indexFile := none } "t0")
        [StoreOp.add wAuthEntry "u1" "t1", StoreOp.upd "id-a" wUpdTitle "t2",
         StoreOp.del "missing" "t3"]) "t9").1.entries) ∧
    (getIndex (runOps (initStore { entryFiles := [], indexFile := none } "t0")
        [StoreOp.add wAuthEntry "u1" "t1", StoreOp.upd "id-a" wUpdTitle "t2",
         StoreOp.del "missing" "t3"]) "t9").totalEntries
      = (getAllEntries (runOps (initStore { entryFiles := [], indexFile := none } "t0")
        [StoreOp.add wAuthEntry "u1" "t1", StoreOp.upd "id-a" wUpdTitle "t2",
         StoreOp.del "missing" "t3"])).length :=
  index_consistency_fresh_ids "t0" "t9"
    [StoreOp.add wAuthEntry "u1" "t1", StoreOp.upd "id-a" wUpdTitle "t2",
     StoreOp.del "missing" "t3"]
    ⟨fun _ => rfl, trivial, trivial, trivial⟩

theorem foldl_preserves {α σ : Type} (P : σ → Prop) (step : σ → α → σ)
    (hstep : ∀ s x, P s → P (step s x)) :
    ∀ (l : List α) (s : σ), P s → P (l.foldl step s) := by
  intro l
  induction l with
  | nil => intro s hs; exact hs
  | cons x xs ih =>
      intro s hs
      exact ih _ (hstep s x hs)

theorem keys_nodup_writeFile {α : Type} {m : FileMap α}
    (h : (m.map Prod.fst).Nodup) (k : String) (v : α) :
    ((writeFile m k v).map Prod.fst).Nodup := by
  by_cases hk : lookupFile m k = none
  · rw [writeFile_of_not_mem hk, List.map_append]
    refine List.nodup_append.mpr ⟨h, by simp, ?_⟩
    intro a ha hb
    rcases List.mem_map.mp ha with ⟨kv, hkv, hkva⟩
    simp only [List.map_cons, List.map_nil, List.mem_singleton] at hb
    exact (lookupFile_eq_none_iff _ _).mp hk kv hkv (hkva.trans hb)
  · rw [keys_writeFile_of_mem hk]
    exact h

theorem topicStats_keys_nodup (fh : List Feedback) (sessions : List Session) :
    ((topicStats fh sessions).map Prod.fst).Nodup := by
  unfold topicStats
  refine foldl_preserves (fun ts : FileMap TopicStat => (ts.map Prod.fst).Nodup)
    _ ?_ _ [] (by exact List.nodup_nil)
  intro ts kv hts
  refine foldl_preserves (fun ts : FileMap TopicStat => (ts.map Prod.fst).Nodup)
    _ ?_ _ ts hts
  intro ts2 term hts2
  exact keys_nodup_writeFile hts2 _ _

theorem lookup_of_mem_nodup {α : Type} {m : FileMap α}
    (hnd : (m.map Prod.fst).Nodup) {kv : String × α} (h : kv ∈ m) :
    lookupFile m kv.1 = some kv.2 := by
  induction m with
  | nil => cases h
  | cons kv0 rest ih =>
      rw [List.map_cons, List.nodup_cons] at hnd
      rcases List.mem_cons.mp h with h | h
      · rw [h, lookupFile_cons, if_pos (by simp)]
      · rw [lookupFile_cons]
        by_cases h0 : (kv0.1 == kv.1) = true
        · exfalso
          have hin : kv.1 ∈ rest.map Prod.fst := List.mem_map.mpr ⟨kv, h, rfl⟩
          have heq : kv0.1 = kv.1 := by simpa using h0
          exact hnd.1 (heq ▸ hin)
        · rw [if_neg h0]
          exact ih hnd.2 h

theorem mem_of_lookup {α : Type} {m : FileMap α} {k : String} {v : α}
    (h : lookupFile m k = some v) : (k, v) ∈ m := by
  unfold lookupFile at h
  rcases hf : m.find? (fun kv => kv.1 == k) with _ | kv
  · rw [hf] at h
    cases h
  · rw [hf] at h
    simp only [Option.map_some', Option.some.injEq] at h
    have hm := List.mem_of_find?_eq_some hf
    have hp := List.find?_some hf
    have hkv : kv = (k, v) := by
      rcases kv with ⟨k1, v1⟩
      simp only at h hp
      simp only [beq_iff_eq] at hp
      rw [hp, h]
    exact hkv ▸ hm

/-- C8: a topic is reported as a weak area by `identifyWeakAreas` iff the
topic's accumulated ratings satisfy total ≥ 2 and negative/total ≥ 0.4, and
the reported weak areas are sorted by descending negative count. (In
particular 1 negative of 2 total — ratio 1/2 ≥ 0.4 — is reported and 1
negative of 1 total is not, the total falling short of 2.) -/
theorem weakAreas_threshold_sorted (fh : List Feedback) (sessions : List Session) :
    (∀ topic : String,
      (∃ wa ∈ identifyWeakAreas fh sessions, wa.topic = topic) ↔
      (∃ st : TopicStat, lookupFile (topicStats fh sessions) topic = some st ∧
        2 ≤ st.total ∧ (0.4 : ℚ) ≤ (st.negative : ℚ) / (st.total : ℚ))) ∧
    (identifyWeakAreas fh sessions).Pairwise
      fun a b => b.negativeCount ≤ a.negativeCount := by
  constructor
  · intro topic
    unfold identifyWeakAreas
    rw [foldl_filter_append (fun kv : String × TopicStat => weakThreshold kv.2) mkWeakArea]
    constructor
    · rintro ⟨wa, hwa, htopic⟩
      have hwa2 := (sortDescBy_perm (fun wa : WeakArea => wa.negativeCount) _).mem_iff.mp hwa
      simp only [List.nil_append] at hwa2
      rcases List.mem_map.mp hwa2 with ⟨kv, hkvf, hmk⟩
      rcases List.mem_filter.mp hkvf with ⟨hkv, hdec⟩
      have hth : weakThreshold kv.2 := of_decide_eq_true hdec
      have hkey : kv.1 = topic := by
        rw [← htopic, ← hmk]
        rfl
      refine ⟨kv.2, ?_, hth.1, hth.2⟩
      rw [← hkey]
      exact lookup_of_mem_nodup (topicStats_keys_nodup fh sessions) hkv
    · rintro ⟨st, hlk, h2, h4⟩
      refine ⟨mkWeakArea (topic, st), ?_, rfl⟩
      refine (sortDescBy_perm (fun wa : WeakArea => wa.negativeCount) _).mem_iff.mpr ?_
      simp only [List.nil_append]
      refine List.mem_map.mpr ⟨(topic, st), ?_, rfl⟩
      refine List.mem_filter.mpr ⟨mem_of_lookup hlk, decide_eq_true ⟨h2, h4⟩⟩
  · exact sortDescBy_pairwise (fun wa : WeakArea => wa.negativeCount) _

theorem confMatchAt_succ (c : Char) (rest : List Char) (i : Nat) :
    confMatchAt (c :: rest) (i + 1) = confMatchAt rest i := rfl

theorem followMatchAt_succ (c : Char) (rest : List Char) (i : Nat) :
    followMatchAt (c :: rest) (i + 1) = followMatchAt rest i := rfl

theorem scanConfidence_none_iff (s : List Char) :
    scanConfidence s = none ↔ ∀ i, confMatchAt s i = false := by
  induction s with
  | nil =>
      constructor
      · intro _ i
        simp only [confMatchAt, List.drop_nil]
        decide
      · intro _
        rfl
  | cons c rest ih =>
      have hsplit : (scanConfidence (c :: rest) = scanConfidence rest ∧
          confMatchAt (c :: rest) 0 = false) ∨
          (∃ lvl, scanConfidence (c :: rest) = some lvl ∧
            confMatchAt (c :: rest) 0 = true) := by
        by_cases hk : leadsCI confKeyword (c :: rest) = true
        · rcases halt : confAlternatives
              (((c :: rest).drop confKeyword.length).dropWhile
                fun ch => ch.isWhitespace) with _ | lvl
          · refine Or.inl ⟨?_, ?_⟩
            · rw [scanConfidence, if_pos hk, halt]
            · simp only [confMatchAt, List.drop_zero, halt, Option.isSome_none,
                Bool.and_false]
          · refine Or.inr ⟨lvl, ?_, ?_⟩
            · rw [scanConfidence, if_pos hk, halt]
            · simp only [confMatchAt, List.drop_zero, hk, halt, Option.isSome_some,
                Bool.true_and]
        · have hfk : leadsCI confKeyword (c :: rest) = false := by simpa using hk
          refine Or.inl ⟨?_, ?_⟩
          · rw [scanConfidence, if_neg hk]
          · simp only [confMatchAt, List.drop_zero, hfk, Bool.false_and]
      rcases hsplit with ⟨hscan, h0⟩ | ⟨lvl, hscan, h0⟩
      · rw [hscan, ih]
        constructor
        · intro h i
          cases i with
          | zero => exact h0
          | succ i =>
              rw [confMatchAt_succ]
              exact h i
        · intro h i
          have := h (i + 1)
          rw [confMatchAt_succ] at this
          exact this
      · rw [hscan]
        constructor
        · intro h
          cases h
        · intro h
          rw [h 0] at h0
          cases h0

theorem scanFollowUps_none_iff (s : List Char) :
    scanFollowUps s = none ↔ ∀ i, followMatchAt s i = false := by
  induction s with
  | nil =>
      constructor
      · intro _ i
        simp only [followMatchAt, List.drop_nil]
        decide
      · intro _
        rfl
  | cons c rest ih =>
      have hsplit : (scanFollowUps (c :: rest) = scanFollowUps rest ∧
          followMatchAt (c :: rest) 0 = false) ∨
          (∃ cap, scanFollowUps (c :: rest) = some cap ∧
            followMatchAt (c :: rest) 0 = true) := by
        by_cases hk : leadsCI followKeyword (c :: rest) = true
        · rcases hcap : (((c :: rest).drop followKeyword.length).dropWhile
              fun ch => ch.isWhitespace).takeWhile (fun ch => ¬ ch = '\n') with _ | ⟨d, ds⟩
          · refine Or.inl ⟨?_, ?_⟩
            · rw [scanFollowUps, if_pos hk]
              simp only [hcap]
              simp
            · simp only [followMatchAt, List.drop_zero, hcap, List.isEmpty_nil,
                Bool.not_true, Bool.and_false]
          · refine Or.inr ⟨d :: ds, ?_, ?_⟩
            · rw [scanFollowUps, if_pos hk]
              simp only [hcap]
              simp
            · simp only [followMatchAt, List.drop_zero, hk, hcap, List.isEmpty_cons,
                Bool.not_false, Bool.true_and]
        · have hfk : leadsCI followKeyword (c :: rest) = false := by simpa using hk
          refine Or.inl ⟨?_, ?_⟩
          · rw [scanFollowUps, if_neg hk]
          · simp only [followMatchAt, List.drop_zero, hfk, Bool.false_and]
      rcases hsplit with ⟨hscan, h0⟩ | ⟨cap, hscan, h0⟩
      · rw [hscan, ih]
        constructor
        · intro h i
          cases i with
          | zero => exact h0
          | succ i =>
              rw [followMatchAt_succ]
              exact h i
        · intro h i
          have := h (i + 1)
          rw [followMatchAt_succ] at this
          exact this
      · rw [hscan]
        constructor
        · intro h
          cases h
        · intro h
          rw [h 0] at h0
          cases h0

theorem confAlternatives_mem {s : List Char} {lvl : String}
    (h : confAlternatives s = some lvl) :
    lvl = "low" ∨ lvl = "medium" ∨ lvl = "high" := by
  unfold confAlternatives at h
  by_cases h1 : leadsCI "low".data s = true
  · rw [if_pos h1] at h
    exact Or.inl (Option.some.injEq _ _ ▸ h).symm
  · rw [if_neg h1] at h
    by_cases h2 : leadsCI "medium".data s = true
    · rw [if_pos h2] at h
      exact Or.inr (Or.inl (Option.some.injEq _ _ ▸ h).symm)
    · rw [if_neg h2] at h
      by_cases h3 : leadsCI "high".data s = true
      · rw [if_pos h3] at h
        exact Or.inr (Or.inr (Option.some.injEq _ _ ▸ h).symm)
      · rw [if_neg h3] at h
        cases h

theorem scanConfidence_some_mem {s : List Char} {lvl : String}
    (h : scanConfidence s = some lvl) :
    lvl = "low" ∨ lvl = "medium" ∨ lvl = "high" := by
  induction s with
  | nil => cases h
  | cons c rest ih =>
      by_cases hk : leadsCI confKeyword (c :: rest) = true
      · rcases halt : confAlternatives
            (((c :: rest).drop confKeyword.length).dropWhile
              fun ch => ch.isWhitespace) with _ | lvl0
        · rw [scanConfidence, if_pos hk, halt] at h
          exact ih h
        · rw [scanConfidence, if_pos hk, halt] at h
          have : lvl0 = lvl := by simpa using h
          exact this ▸ confAlternatives_mem halt
      · rw [scanConfidence, if_neg hk] at h
        exact ih h

theorem confMatchAt_ge_length {s : List Char} {i : Nat} (h : s.length ≤ i) :
    confMatchAt s i = false := by
  unfold confMatchAt
  rw [List.drop_eq_nil_of_le h]
  decide

theorem followMatchAt_ge_length {s : List Char} {i : Nat} (h : s.length ≤ i) :
    followMatchAt s i = false := by
  unfold followMatchAt
  rw [List.drop_eq_nil_of_le h]
  decide

theorem confMatchAt_all_false_of_check (s : List Char)
    (h : ((List.range s.length).all fun i => !(confMatchAt s i)) = true) :
    ∀ i, confMatchAt s i = false := by
  intro i
  by_cases hi : i < s.length
  · have := List.all_eq_true.mp h i (List.mem_range.mpr hi)
    simpa using this
  · exact confMatchAt_ge_length (le_of_not_lt hi)

theorem followMatchAt_all_false_of_check (s : List Char)
    (h : ((List.range s.length).all fun i => !(followMatchAt s i)) = true) :
    ∀ i, followMatchAt s i = false := by
  intro i
  by_cases hi : i < s.length
  · have := List.all_eq_true.mp h i (List.mem_range.mpr hi)
    simpa using this
  · exact followMatchAt_ge_length (le_of_not_lt hi)

/-- C9: when no position of the response matches
`/CONFIDENCE:\s*(low|medium|high)/i`, `parseConfidence` falls back to the
fixed default 0.5 — a mid-scale ("medium") confidence strictly between the
explicit low (0.3) and high (0.9) values (and distinct from the 0.6 an
explicit `medium` marker yields); when no position matches
`/FOLLOW_UPS:\s*(.+)/i` (up to all-whitespace captures, which trim to
nothing), `parseFollowUps` returns the empty list; otherwise the confidence
level is the one captured from the marker line and the follow-ups are the
pipe-split, trimmed, non-empty fragments of the captured line. -/
theorem qa_parser_fallback (response : String) :
    ((∀ i, confMatchAt response.data i = false) → parseConfidence response = 0.5) ∧
    ((∀ i, followMatchAt response.data i = false) → parseFollowUps response = []) ∧
    (∀ lvl, scanConfidence response.data = some lvl →
      (lvl = "low" ∨ lvl = "medium" ∨ lvl = "high") ∧
      parseConfidence response =
        (if lvl = "high" then 0.9 else if lvl = "medium" then 0.6 else 0.3)) ∧
    (∀ cap, scanFollowUps response.data = some cap →
      parseFollowUps response =
        ((splitOnPred (fun c => c == '|') (String.mk cap)).map trimStr).filter
          fun q => 0 < q.length) ∧
    ((0.3 : ℚ) < 0.5 ∧ (0.5 : ℚ) < 0.9 ∧ (0.5 : ℚ) ≠ 0.6) := by
  refine ⟨?_, ?_, ?_, ?_, by norm_num, by norm_num, by norm_num⟩
  · intro h
    have hnone : scanConfidence response.data = none :=
      (scanConfidence_none_iff response.data).mpr h
    unfold parseConfidence
    rw [hnone]
  · intro h
    have hnone : scanFollowUps response.data = none :=
      (scanFollowUps_none_iff response.data).mpr h
    unfold parseFollowUps
    rw [hnone]
  · intro lvl hsome
    refine ⟨scanConfidence_some_mem hsome, ?_⟩
    unfold parseConfidence
    rw [hsome]
    rcases scanConfidence_some_mem hsome with h | h | h <;> subst h <;> rfl
  · intro cap hsome
    unfold parseFollowUps
    rw [hsome]

theorem qa_parser_fallback_witness :
    parseConfidence "The flow is explained by the auth module." = 0.5 ∧
    parseFollowUps "The flow is explained by the auth module." = [] ∧
    parseConfidence "Done.\nCONFIDENCE: high\nFOLLOW_UPS: q1 | q2" = 0.9 ∧
    parseFollowUps "Done.\nCONFIDENCE: high\nFOLLOW_UPS: q1 | q2" = ["q1", "q2"] := by
  refine ⟨?_, ?_, ?_, ?_⟩
  · exact (qa_parser_fallback "The flow is explained by the auth module.").1
      (confMatchAt_all_false_of_check _ (by decide))
  · exact (qa_parser_fallback "The flow is explained by the auth module.").2.1
      (followMatchAt_all_false_of_check _ (by decide))
  · have h := ((qa_parser_fallback "Done.\nCONFIDENCE: high\nFOLLOW_UPS: q1 | q2").2.2.1
      "high" (by decide)).2
    simpa using h
  · have h := (qa_parser_fallback "Done.\nCONFIDENCE: high\nFOLLOW_UPS: q1 | q2").2.2.2.1
      "q1 | q2".data (by decide)
    rw [h]
    rfl

end Handover

